import Mathlib

/-!
Shallow embedding of the core of `main.py` (Google Drive image mirroring):
the per-folder multi-pass reconciler `process_folder`, the per-file
`download_image`, the root enumerator `fetch_computers_folders`, the
batch splitter `split_batches`, and the worker-launch loop of `main`.

External effects are modelled explicitly:
  * the local directory is a finite map from file name to mtime (seconds);
  * the Drive listing for each pass is a list of pages, where a `none`
    page stands for an exception raised by the page request
    (`service.files().list(...).execute()`);
  * each call to `download_image` consults an oracle `dl` indexed by a
    running counter; the Python function catches every exception itself,
    so a failed download is a normal result that only logs an error.
    Because the file is opened with mode `wb` before the bytes arrive, a
    failing download may leave a partial file behind (`errPartial`) or
    no file at all when the request fails before the open (`errNone`);
  * log lines relevant to the verified properties become `Event`s in a
    trace; `now` is supplied per pass by the environment.

Subfolder recursion (`process_folder` calling itself on a child folder)
operates on a disjoint directory, catches all of its own exceptions, and
does not touch the parent folder's snapshot, counters, or control flow,
so the per-folder model keeps only the image-processing part of a page.
The ghost field `seen` records which image entries the loop iterated
over (`for img in images`); it influences nothing.
-/

namespace GDriveSync

/-- Char-list version of Python `s.startswith(pat)`: `pat` is an initial
run of the second list. -/
def chPre : List Char → List Char → Bool
  | [], _ => true
  | _ :: _, [] => false
  | a :: as, b :: bs => a == b && chPre as bs

/-- Char-list version of Python `pat in s` (substring containment). -/
def chSub (pat : List Char) : List Char → Bool
  | [] => pat.isEmpty
  | c :: rest => chPre pat (c :: rest) || chSub pat rest

/-- Python `pat in s` on strings, as used in `'image/' in f['mimeType']`
(`main.py` line 131): substring containment. -/
def strContains (pat s : String) : Bool := chSub pat.data s.data

/-- Follows the spec's words, for comparison with `strContains`:
"mimeType starts with an image-media prefix" — i.e. Python
`s.startswith(pat)`.  Not used by the embedding of the code. -/
def strStarts (pat s : String) : Bool := chPre pat.data s.data

/-- A Drive entry as returned by `files().list` with
`fields="... files(id, name, mimeType)"`. -/
structure Entry where
  id : String
  name : String
  mimeType : String
deriving DecidableEq

/-- The folder container mime type (`main.py` line 130). -/
def folderMime : String := "application/vnd.google-apps.folder"

/-- Membership predicate of the `subfolders` list comprehension
(`main.py` line 130): `f['mimeType'] == 'application/vnd.google-apps.folder'`. -/
def isSubfolderEntry (e : Entry) : Bool := e.mimeType == folderMime

/-- Membership predicate of the `images` list comprehension
(`main.py` line 131): `'image/' in f['mimeType']`. -/
def isImageEntry (e : Entry) : Bool := strContains "image/" e.mimeType

/-- The three-way classification the spec assigns to a remote entry. -/
inductive Classification where
  | folder
  | image
  | ignored
deriving DecidableEq

/-- Derived single-function classifier: an entry lands in the
`subfolders` list, else in the `images` list, else in neither. -/
def classify (e : Entry) : Classification :=
  if isSubfolderEntry e then Classification.folder
  else if isImageEntry e then Classification.image
  else Classification.ignored

/-- The local directory, as a finite map file name → mtime in seconds
(`parent_dir` contents; `f.stat().st_mtime`). -/
abbrev FS := List (String × Nat)

/-- `file_path.exists()` / `file_path.stat().st_mtime` combined:
look a file up by name. -/
def lookupFile : FS → String → Option Nat
  | [], _ => none
  | (m, t) :: rest, n => if m = n then some t else lookupFile rest n

/-- `file_path.unlink()`: remove the file with the given name. -/
def removeFile : FS → String → FS
  | [], _ => []
  | (m, t) :: rest, n =>
      if m = n then removeFile rest n else (m, t) :: removeFile rest n

/-- Writing the file: it now exists with the given mtime. -/
def setFile (fs : FS) (n : String) (t : Nat) : FS := (n, t) :: removeFile fs n

/-- `{f.name for f in parent_dir.iterdir() if f.is_file()}`
(`main.py` line 112): the names present in the directory. -/
def fileNames (fs : FS) : List String := fs.map Prod.fst

/-- Python `timedelta.days` of `now - mtime`:
`(datetime.now() - datetime.fromtimestamp(mtime)).days`, i.e. the whole
number of days elapsed.  A negative difference would give a negative
`days` in Python, which fails the `> 3` test exactly as the truncated
`Nat` subtraction (yielding `0`) does. -/
def secondsPerDay : Nat := 86400

/-- Whole days between `mtime` and `now` (see `secondsPerDay`). -/
def ageDays (now mtime : Nat) : Nat := (now - mtime) / secondsPerDay

/-- The log lines of `process_folder` / `download_image` that the
verified properties talk about. -/
inductive Event where
  | passStart (p : Nat)
  | deletedOld (nm : String)
  | skippedRecent (nm : String)
  | downloadOk (nm : String)
  | downloadErr (nm : String)
  | folderError
  | noNewFiles (p : Nat)
deriving DecidableEq

/-- Outcome of one `download_image` call.  The Python function catches
every exception itself; `errPartial` is a failure that leaves a
(partial) file behind (the target was already opened with `wb`),
`errNone` a failure before the file was created. -/
inductive DlResult where
  | ok
  | errPartial
  | errNone
deriving DecidableEq

/-- The external world of one folder reconciliation: per-pass listing
pages (`none` = the page request raised), the download oracle indexed
by a running call counter, and the wall clock per pass. -/
structure Env where
  listing : Nat → List (Option (List Entry))
  dl : Nat → DlResult
  nowAt : Nat → Nat

/-- Mutable state of one `process_folder` run: the directory `fs`, the
`existing_files` name set, the download-call counter feeding the
oracle, the log trace, and the ghost list `seen` of image entries the
loop iterated over. -/
structure St where
  fs : FS
  existing : List String
  dlCount : Nat
  trace : List Event
  seen : List String
deriving DecidableEq

/-- `download_image(service, file_id, file_name, folder_path)`
(`main.py` lines 89–105): on success the file exists with mtime `now`
and a success line is logged (the subsequent in-place resize keeps the
file and never removes it); on failure the error is logged and the
call returns normally — a partial file may or may not remain. -/
def download_image (env : Env) (p : Nat) (nm : String) (st : St) : St :=
  match env.dl st.dlCount with
  | DlResult.ok =>
      { st with fs := setFile st.fs nm (env.nowAt p),
                dlCount := st.dlCount + 1,
                trace := st.trace ++ [Event.downloadOk nm] }
  | DlResult.errPartial =>
      { st with fs := setFile st.fs nm (env.nowAt p),
                dlCount := st.dlCount + 1,
                trace := st.trace ++ [Event.downloadErr nm] }
  | DlResult.errNone =>
      { st with dlCount := st.dlCount + 1,
                trace := st.trace ++ [Event.downloadErr nm] }

/-- Body of `for img in images:` (`main.py` lines 133–153): the
skip / delete+redownload / new-download decision for one image entry.
The second component of the accumulator is the `new_files` counter. -/
def processImage (env : Env) (p : Nat) (acc : St × Nat) (e : Entry) : St × Nat :=
  let st := { acc.1 with seen := acc.1.seen ++ [e.name] }
  let nf := acc.2
  if e.name ∈ st.existing then
    match lookupFile st.fs e.name with
    | some mt =>
        if 3 < ageDays (env.nowAt p) mt then
          let st1 := { st with fs := removeFile st.fs e.name,
                               trace := st.trace ++ [Event.deletedOld e.name] }
          (download_image env p e.name st1, nf + 1)
        else
          ({ st with trace := st.trace ++ [Event.skippedRecent e.name] }, nf)
    | none => (st, nf)
  else
    let st1 := download_image env p e.name st
    ({ st1 with existing := st1.existing ++ [e.name] }, nf + 1)

/-- The `while True:` pagination loop of one pass (`main.py` lines
119–162): each page's items are filtered to images and processed in
order; a `none` page is the exception caught at line 164, which logs
the folder error and signals the pass loop to break (third component
`true`). -/
def processPages (env : Env) (p : Nat) :
    List (Option (List Entry)) → St → Nat → St × Nat × Bool
  | [], st, nf => (st, nf, false)
  | none :: _, st, nf =>
      ({ st with trace := st.trace ++ [Event.folderError] }, nf, true)
  | some items :: rest, st, nf =>
      let images := items.filter (fun f => isImageEntry f)
      let r := images.foldl (processImage env p) (st, nf)
      processPages env p rest r.1 r.2

/-- `for attempt in range(max_passes):` (`main.py` lines 114–174),
structurally recursing on the number of remaining passes.  A caught
listing exception breaks out of the loop; a pass with zero new files
logs convergence and breaks; otherwise the loop sleeps and retries. -/
def passLoop (env : Env) : Nat → Nat → St → St
  | 0, _, st => st
  | fuel + 1, attempt, st =>
      let st0 := { st with trace := st.trace ++ [Event.passStart attempt] }
      let r := processPages env attempt (env.listing attempt) st0 0
      if r.2.2 then r.1
      else if r.2.1 = 0 then
        { r.1 with trace := r.1.trace ++ [Event.noNewFiles attempt] }
      else passLoop env fuel (attempt + 1) r.1

/-- `max_passes=3` (`main.py` line 107). -/
def maxPasses : Nat := 3

/-- Initial state of `process_folder`: the `existing_files` snapshot is
taken once from the directory before the pass loop. -/
def initSt (fs0 : FS) : St :=
  { fs := fs0, existing := fileNames fs0, dlCount := 0, trace := [], seen := [] }

/-- `process_folder(service, folder_id, parent_path)` (`main.py` lines
107–176) for one folder: snapshot, then the bounded pass loop. -/
def process_folder (env : Env) (fs0 : FS) : St :=
  passLoop env maxPasses 0 (initSt fs0)

/-- A folder entry of the root enumeration
(`fields='... files(id, name, parents)'`). -/
structure FolderInfo where
  id : String
  name : String
  parents : List String
deriving DecidableEq

/-- `[f for f in response.get('files', []) if not f.get('parents')]`
(`main.py` line 193): the parentless folders of one page. -/
def rootsOfPage (page : List FolderInfo) : List FolderInfo :=
  page.filter (fun f => f.parents.isEmpty)

/-- `fetch_computers_folders(service)` (`main.py` lines 178–202) over
its successive page requests: a `none` page is the exception caught at
line 197, which logs and breaks, so the folders gathered so far are
returned. -/
def fetch_computers_folders : List (Option (List FolderInfo)) → List FolderInfo
  | [] => []
  | none :: _ => []
  | some page :: rest => rootsOfPage page ++ fetch_computers_folders rest

/-- `split_batches(lst, n)` (`main.py` lines 204–206):
`k, m = divmod(len(lst), n)` and batch `i` is
`lst[i*k + min(i, m) : (i+1)*k + min(i+1, m)]`, rendered with
`drop`/`take` (Python slice `lst[a:b]` = `(lst.drop a).take (b - a)`). -/
def split_batches (lst : List α) (n : Nat) : List (List α) :=
  let k := lst.length / n
  let m := lst.length % n
  (List.range n).map (fun i =>
    (lst.drop (i * k + min i m)).take ((i + 1) * k + min (i + 1) m - (i * k + min i m)))

/-- The worker-launch loop of `main` (`main.py` lines 224–238): when no
folders were found `main` returns before launching anything; otherwise
`for i, batch in enumerate(batches): p = Process(...); p.start()`
starts one process per batch, unconditionally. -/
def workersStarted (folders : List α) (n : Nat) : Nat :=
  if folders.isEmpty then 0 else (split_batches folders n).length

/-- Image entries of the (non-failing) pages of one pass, by name: the
names the `for img in images` loop iterates over when no page fails. -/
def passImageNames (pages : List (Option (List Entry))) : List String :=
  (((pages.filterMap id).flatten).filter (fun f => isImageEntry f)).map Entry.name

/-- Is this event the deletion line for file `n`? -/
def isDelFor (n : String) : Event → Bool
  | Event.deletedOld m => m == n
  | _ => false

/-- Is this event a download line (success or error) for file `n`? -/
def isDlFor (n : String) : Event → Bool
  | Event.downloadOk m => m == n
  | Event.downloadErr m => m == n
  | _ => false

/-- Is this event a pass-start line? -/
def isPassEv : Event → Bool
  | Event.passStart _ => true
  | _ => false

/-- Number of deletion lines for `n` in a trace. -/
def delCount (n : String) (tr : List Event) : Nat := tr.countP (isDelFor n)

/-- Number of download lines for `n` in a trace. -/
def dlEvCount (n : String) (tr : List Event) : Nat := tr.countP (isDlFor n)

/-- Number of pass-start lines in a trace. -/
def passCount (tr : List Event) : Nat := tr.countP isPassEv

section FSLemmas

theorem lookupFile_removeFile_self (fs : FS) (n : String) :
    lookupFile (removeFile fs n) n = none := by
  induction fs with
  | nil => simp [removeFile, lookupFile]
  | cons hd tl ih =>
      obtain ⟨m, t⟩ := hd
      by_cases hmn : m = n
      · simpa [removeFile, hmn] using ih
      · simp [removeFile, hmn, lookupFile, ih]

theorem lookupFile_removeFile_ne (fs : FS) {n x : String} (h : x ≠ n) :
    lookupFile (removeFile fs n) x = lookupFile fs x := by
  induction fs with
  | nil => simp [removeFile]
  | cons hd tl ih =>
      obtain ⟨m, t⟩ := hd
      by_cases hmn : m = n
      · have hnx : ¬ n = x := fun hh => h hh.symm
        have hmx : ¬ m = x := by rw [hmn]; exact hnx
        simp [removeFile, hmn, lookupFile, hmx, hnx, ih]
      · simp [removeFile, hmn, lookupFile, ih]

theorem lookupFile_removeFile (fs : FS) (n x : String) :
    lookupFile (removeFile fs n) x = if x = n then none else lookupFile fs x := by
  by_cases h : x = n
  · simp [h, lookupFile_removeFile_self]
  · simp [h, lookupFile_removeFile_ne fs h]

theorem lookupFile_setFile (fs : FS) (n : String) (t : Nat) (x : String) :
    lookupFile (setFile fs n t) x = if x = n then some t else lookupFile fs x := by
  by_cases h : x = n
  · simp [setFile, lookupFile, h]
  · have hnx : ¬ n = x := fun hh => h hh.symm
    simp [setFile, lookupFile, hnx, h, lookupFile_removeFile_ne fs h]

theorem lookupFile_isSome_of_mem {fs : FS} {x : String} (h : x ∈ fileNames fs) :
    (lookupFile fs x).isSome = true := by
  induction fs with
  | nil => simp [fileNames] at h
  | cons hd tl ih =>
      obtain ⟨m, t⟩ := hd
      by_cases hmx : m = x
      · simp [lookupFile, hmx]
      · simp [fileNames] at h
        rcases h with h | h
        · exact absurd h.symm hmx
        · simpa [lookupFile, hmx] using ih (by simpa [fileNames] using h)

theorem mem_fileNames_of_lookup {fs : FS} {x : String} {t : Nat}
    (h : lookupFile fs x = some t) : x ∈ fileNames fs := by
  induction fs with
  | nil => simp [lookupFile] at h
  | cons hd tl ih =>
      obtain ⟨m, u⟩ := hd
      by_cases hmx : m = x
      · simp [fileNames, hmx]
      · simp only [lookupFile, if_neg hmx] at h
        have := ih h
        simp only [fileNames, List.map_cons] at *
        exact List.mem_cons_of_mem _ this

end FSLemmas

section StepLemmas

variable (env : Env) (p : Nat) (nm : String) (st : St) (nf : Nat) (e : Entry)

theorem download_image_existing :
    (download_image env p nm st).existing = st.existing := by
  cases h : env.dl st.dlCount <;> simp [download_image, h]

theorem download_image_seen :
    (download_image env p nm st).seen = st.seen := by
  cases h : env.dl st.dlCount <;> simp [download_image, h]

theorem download_image_trace :
    (download_image env p nm st).trace = st.trace ++ [Event.downloadOk nm] ∨
    (download_image env p nm st).trace = st.trace ++ [Event.downloadErr nm] := by
  cases h : env.dl st.dlCount <;> simp [download_image, h]

theorem download_image_fs :
    ((download_image env p nm st).fs = setFile st.fs nm (env.nowAt p) ∧
      lookupFile (download_image env p nm st).fs nm = some (env.nowAt p)) ∨
    ((download_image env p nm st).fs = st.fs ∧
      (download_image env p nm st).trace = st.trace ++ [Event.downloadErr nm]) := by
  cases h : env.dl st.dlCount <;>
    simp [download_image, h, lookupFile_setFile]

theorem download_image_lookup_ne {x : String} (hx : x ≠ nm) :
    lookupFile (download_image env p nm st).fs x = lookupFile st.fs x := by
  cases h : env.dl st.dlCount <;>
    simp [download_image, h, lookupFile_setFile, hx]

theorem processImage_absent (h1 : e.name ∈ st.existing)
    (h2 : lookupFile st.fs e.name = none) :
    processImage env p (st, nf) e = ({ st with seen := st.seen ++ [e.name] }, nf) := by
  simp [processImage, h1, h2]

theorem processImage_skip {mt : Nat} (h1 : e.name ∈ st.existing)
    (h2 : lookupFile st.fs e.name = some mt)
    (h3 : ¬ 3 < ageDays (env.nowAt p) mt) :
    processImage env p (st, nf) e =
      ({ st with trace := st.trace ++ [Event.skippedRecent e.name],
                 seen := st.seen ++ [e.name] }, nf) := by
  simp [processImage, h1, h2, h3]

theorem processImage_stale {mt : Nat} (h1 : e.name ∈ st.existing)
    (h2 : lookupFile st.fs e.name = some mt)
    (h3 : 3 < ageDays (env.nowAt p) mt) :
    processImage env p (st, nf) e =
      (download_image env p e.name
        { st with fs := removeFile st.fs e.name,
                  trace := st.trace ++ [Event.deletedOld e.name],
                  seen := st.seen ++ [e.name] }, nf + 1) := by
  simp [processImage, h1, h2, h3]

theorem processImage_new (h1 : e.name ∉ st.existing) :
    processImage env p (st, nf) e =
      ({ download_image env p e.name { st with seen := st.seen ++ [e.name] } with
          existing := (download_image env p e.name
            { st with seen := st.seen ++ [e.name] }).existing ++ [e.name] },
        nf + 1) := by
  simp [processImage, h1]

end StepLemmas

section Claim7

/-- C7 counterexample: the code's image test is substring containment,
not a starts-with test.  The mime type `"ximage/png"` does not start
with `"image/"`, yet the entry lands in the `images` list and is
classified as an image. -/
theorem c7_counterexample :
    isImageEntry ⟨"id1", "pic", "ximage/png"⟩ = true ∧
    strStarts "image/" "ximage/png" = false ∧
    classify ⟨"id1", "pic", "ximage/png"⟩ = Classification.image := by
  decide

/-- C7 (amended): every entry gets exactly one classification — Folder
exactly when its mimeType equals the folder container type, otherwise
Image exactly when its mimeType CONTAINS the image-media marker
`"image/"` as a substring (not: starts with it), otherwise ignored;
and no entry is ever in both the `subfolders` and the `images` list,
because the folder mime type does not contain `"image/"`. -/
theorem c7_classification (e : Entry) :
    (isSubfolderEntry e = true ↔ classify e = Classification.folder) ∧
    (isImageEntry e = true ↔ classify e = Classification.image) ∧
    (classify e = Classification.image ↔
      (strContains "image/" e.mimeType = true ∧ e.mimeType ≠ folderMime)) ∧
    ¬ (isSubfolderEntry e = true ∧ isImageEntry e = true) := by
  have hexcl : ¬ (isSubfolderEntry e = true ∧ isImageEntry e = true) := by
    rintro ⟨h1, h2⟩
    have he : e.mimeType = folderMime := by
      simpa [isSubfolderEntry] using h1
    rw [isImageEntry, he] at h2
    revert h2
    decide
  refine ⟨?_, ?_, ?_, hexcl⟩
  · constructor
    · intro h; simp [classify, h]
    · intro h
      by_cases hs : isSubfolderEntry e = true
      · exact hs
      · exfalso
        by_cases hi : isImageEntry e = true <;> simp [classify, hs, hi] at h
  · constructor
    · intro h
      have hs : ¬ isSubfolderEntry e = true := fun hs => hexcl ⟨hs, h⟩
      simp [classify, hs, h]
    · intro h
      by_cases hi : isImageEntry e = true
      · exact hi
      · exfalso
        by_cases hs : isSubfolderEntry e = true <;> simp [classify, hs, hi] at h
  · by_cases hs : isSubfolderEntry e = true
    · have he : e.mimeType = folderMime := by simpa [isSubfolderEntry] using hs
      simp [classify, hs, he]
    · have hne : e.mimeType ≠ folderMime := fun he =>
        hs (by simp [isSubfolderEntry, he])
      by_cases hi : isImageEntry e = true
      · have hc : strContains "image/" e.mimeType = true := by
          simpa [isImageEntry] using hi
        simp [classify, hs, hi, hc, hne]
      · have hc : ¬ strContains "image/" e.mimeType = true := by
          simpa [isImageEntry] using hi
        simp [classify, hs, hi, hc]

end Claim7

section Claim8

/-- C8 (confirmed): if a page request fails during root-folder
enumeration (`none` at some position in the page stream), the function
stops paginating and returns exactly the parentless folders
accumulated from the pages already fetched — a partial result rather
than an exception or an empty value. -/
theorem c8_partial_result (L1 : List (List FolderInfo))
    (L2 : List (Option (List FolderInfo))) :
    fetch_computers_folders (L1.map some ++ none :: L2) =
      (L1.map rootsOfPage).flatten := by
  induction L1 with
  | nil => simp [fetch_computers_folders]
  | cons pg rest ih => simp [fetch_computers_folders, ih]

end Claim8

section Claim10

/-- C10 (confirmed): an image entry whose name is in the
`existing_files` snapshot but whose file no longer exists on disk at
check time is passed over silently: the directory, the snapshot, the
log trace, the download counter and the new-file counter are all left
unchanged. -/
theorem c10_missing_file_silent (env : Env) (p : Nat) (st : St) (nf : Nat)
    (e : Entry) (h1 : e.name ∈ st.existing)
    (h2 : lookupFile st.fs e.name = none) :
    (processImage env p (st, nf) e).1.fs = st.fs ∧
    (processImage env p (st, nf) e).1.existing = st.existing ∧
    (processImage env p (st, nf) e).1.trace = st.trace ∧
    (processImage env p (st, nf) e).1.dlCount = st.dlCount ∧
    (processImage env p (st, nf) e).2 = nf := by
  rw [processImage_absent env p st nf e h1 h2]
  exact ⟨rfl, rfl, rfl, rfl, rfl⟩

/-- A deaf-and-dumb environment for concrete runs. -/
def envQuiet : Env :=
  { listing := fun _ => [], dl := fun _ => DlResult.ok, nowAt := fun _ => 0 }

theorem c10_witness :
    (("a.jpg" ∈ (⟨[], ["a.jpg"], 0, [], []⟩ : St).existing ∧
      lookupFile (⟨[], ["a.jpg"], 0, [], []⟩ : St).fs "a.jpg" = none) ∧
     (processImage envQuiet 0 ((⟨[], ["a.jpg"], 0, [], []⟩ : St), 0)
        ⟨"id", "a.jpg", "image/png"⟩).1.trace = []) :=
  ⟨⟨by decide, by decide⟩,
   (c10_missing_file_silent envQuiet 0 ⟨[], ["a.jpg"], 0, [], []⟩ 0
      ⟨"id", "a.jpg", "image/png"⟩ (by decide) (by decide)).2.2.1⟩

end Claim10

section Claim6

/-- C6 counterexample: with one root folder and parallelism 2, the
split yields one non-empty and one empty batch, and the launch loop
starts two workers — one of them for the empty batch.  So workers are
NOT launched only for non-empty batches. -/
theorem c6_counterexample :
    workersStarted [0] 2 = 2 ∧
    ((split_batches [0] 2).filter (fun b => !b.isEmpty)).length = 1 ∧
    ([] : List Nat) ∈ split_batches [0] 2 := by
  decide

/-- C6 (amended): the launch loop starts one worker per batch,
unconditionally — `n` workers whenever the root-folder list is
non-empty (empty batches included), and none at all only because
`main` returns early when the folder list is empty. -/
theorem c6_worker_per_batch {α : Type} (folders : List α) (n : Nat)
    (h0 : 0 < n) (hne : folders ≠ []) :
    workersStarted folders n = n ∧ workersStarted ([] : List α) n = 0 := by
  constructor
  · match folders, hne with
    | f :: fs, _ => simp [workersStarted, split_batches]
  · simp [workersStarted]

theorem c6_witness :
    0 < 3 ∧ ([5] : List Nat) ≠ [] ∧
    (workersStarted [5] 3 = 3 ∧ workersStarted ([] : List Nat) 3 = 0) :=
  ⟨by decide, by decide, c6_worker_per_batch [5] 3 (by decide) (by decide)⟩

end Claim6

section Claim5

/-- `i*k + min i m` for `k, m = divmod(len, n)`: the start offset of
batch `i` in `split_batches`. -/
def batchBound (len n i : Nat) : Nat := i * (len / n) + min i (len % n)

theorem batchBound_succ (len n i : Nat) :
    batchBound len n (i + 1) =
      batchBound len n i + (len / n + if i < len % n then 1 else 0) := by
  unfold batchBound
  by_cases h : i < len % n <;> simp [h, Nat.succ_mul] <;> omega

theorem batchBound_le (len n : Nat) (i : Nat) (hi : i ≤ n) :
    batchBound len n i ≤ len := by
  unfold batchBound
  have h1 : i * (len / n) ≤ n * (len / n) := Nat.mul_le_mul_right _ hi
  have h2 : n * (len / n) + len % n = len := Nat.div_add_mod len n
  have h3 : min i (len % n) ≤ len % n := Nat.min_le_right _ _
  omega

theorem batchBound_top (len n : Nat) (h0 : 0 < n) : batchBound len n n = len := by
  unfold batchBound
  have h2 : n * (len / n) + len % n = len := Nat.div_add_mod len n
  have h3 : len % n < n := Nat.mod_lt _ h0
  have h4 : min n (len % n) = len % n := Nat.min_eq_right (le_of_lt h3)
  omega

theorem take_drop_len {α : Type} (lst : List α) (a b : Nat) (hab : a ≤ b)
    (hb : b ≤ lst.length) : ((lst.drop a).take (b - a)).length = b - a := by
  rw [List.length_take, List.length_drop]
  exact Nat.min_eq_left (by omega)

theorem split_batches_eq {α : Type} (lst : List α) (n : Nat) :
    split_batches lst n = (List.range n).map (fun i =>
      (lst.drop (batchBound lst.length n i)).take
        (batchBound lst.length n (i + 1) - batchBound lst.length n i)) := rfl

theorem split_batches_flatten_take {α : Type} (lst : List α) (n : Nat) :
    ∀ j, ((List.range j).map (fun i =>
      (lst.drop (batchBound lst.length n i)).take
        (batchBound lst.length n (i + 1) - batchBound lst.length n i))).flatten
      = lst.take (batchBound lst.length n j) := by
  intro j
  induction j with
  | zero => simp [batchBound]
  | succ j ih =>
      rw [List.range_succ, List.map_append, List.flatten_append, ih]
      simp only [List.map_cons, List.map_nil, List.flatten_cons, List.flatten_nil,
        List.append_nil]
      have hle : batchBound lst.length n j ≤ batchBound lst.length n (j + 1) := by
        rw [batchBound_succ]
        exact Nat.le_add_right _ _
      have hsum : batchBound lst.length n j +
          (batchBound lst.length n (j + 1) - batchBound lst.length n j) =
          batchBound lst.length n (j + 1) := by omega
      rw [← hsum, List.take_add, Nat.add_sub_cancel_left]

/-- C5 (confirmed): for a positive worker count `n`, `split_batches`
yields exactly `n` batches; their concatenation in order is the input
list; batch `i` has `len/n + 1` elements when `i < len % n` and
`len/n` otherwise (so the first `len mod n` batches get one extra
element); hence any two batch sizes differ by at most 1. -/
theorem c5_split_balanced {α : Type} (lst : List α) (n : Nat) (h0 : 0 < n) :
    (split_batches lst n).length = n ∧
    (split_batches lst n).flatten = lst ∧
    (split_batches lst n).map List.length = (List.range n).map
      (fun i => lst.length / n + if i < lst.length % n then 1 else 0) ∧
    ∀ b1 ∈ split_batches lst n, ∀ b2 ∈ split_batches lst n,
      b1.length ≤ b2.length + 1 := by
  have hml : (split_batches lst n).map List.length = (List.range n).map
      (fun i => lst.length / n + if i < lst.length % n then 1 else 0) := by
    rw [split_batches_eq, List.map_map]
    refine List.map_congr_left ?_
    intro i hi
    have hi' : i < n := List.mem_range.mp hi
    show ((lst.drop (batchBound lst.length n i)).take
      (batchBound lst.length n (i + 1) - batchBound lst.length n i)).length = _
    have h1 : batchBound lst.length n (i + 1) ≤ lst.length :=
      batchBound_le lst.length n (i + 1) hi'
    have hle : batchBound lst.length n i ≤ batchBound lst.length n (i + 1) := by
      rw [batchBound_succ]
      exact Nat.le_add_right _ _
    rw [take_drop_len lst _ _ hle h1, batchBound_succ, Nat.add_sub_cancel_left]
  refine ⟨by simp [split_batches], ?_, hml, ?_⟩
  · rw [split_batches_eq, split_batches_flatten_take lst n n,
      batchBound_top lst.length n h0, List.take_length]
  · intro b1 hb1 b2 hb2
    have h1 : b1.length ∈ (split_batches lst n).map List.length :=
      List.mem_map_of_mem _ hb1
    have h2 : b2.length ∈ (split_batches lst n).map List.length :=
      List.mem_map_of_mem _ hb2
    rw [hml] at h1 h2
    obtain ⟨i1, -, hi1⟩ := List.mem_map.mp h1
    obtain ⟨i2, -, hi2⟩ := List.mem_map.mp h2
    rw [← hi1, ← hi2]
    by_cases c1 : i1 < lst.length % n
    · rw [if_pos c1]
      by_cases c2 : i2 < lst.length % n
      · rw [if_pos c2]
        exact Nat.le_succ _
      · rw [if_neg c2]
    · rw [if_neg c1]
      by_cases c2 : i2 < lst.length % n
      · rw [if_pos c2]
        exact Nat.le_succ_of_le (Nat.le_add_right _ _)
      · rw [if_neg c2]
        exact Nat.le_succ _

theorem c5_witness :
    0 < 2 ∧
    ((split_batches [1, 2, 3] 2).length = 2 ∧
     (split_batches [1, 2, 3] 2).flatten = [1, 2, 3] ∧
     (split_batches [1, 2, 3] 2).map List.length = (List.range 2).map
       (fun i => [1, 2, 3].length / 2 + if i < [1, 2, 3].length % 2 then 1 else 0) ∧
     ∀ b1 ∈ split_batches [1, 2, 3] 2, ∀ b2 ∈ split_batches [1, 2, 3] 2,
       b1.length ≤ b2.length + 1) :=
  ⟨by decide, c5_split_balanced [1, 2, 3] 2 (by decide)⟩

end Claim5

section TraceLemmas

/-- Log lines emitted while handling one image file (as opposed to the
pass/folder-level lines). -/
def fileEv : Event → Bool
  | Event.deletedOld _ => true
  | Event.skippedRecent _ => true
  | Event.downloadOk _ => true
  | Event.downloadErr _ => true
  | _ => false

theorem fileEv_not_pass {ev : Event} (h : fileEv ev = true) : isPassEv ev = false := by
  cases ev <;> simp [fileEv, isPassEv] at h ⊢

theorem processImage_trace_delta (env : Env) (p : Nat) (acc : St × Nat) (e : Entry) :
    ∃ d, (processImage env p acc e).1.trace = acc.1.trace ++ d ∧
      ∀ ev ∈ d, fileEv ev = true := by
  obtain ⟨st, nf⟩ := acc
  by_cases h1 : e.name ∈ st.existing
  · cases hl : lookupFile st.fs e.name with
    | none =>
        rw [processImage_absent env p st nf e h1 hl]
        exact ⟨[], by simp, by simp⟩
    | some mt =>
        by_cases h3 : 3 < ageDays (env.nowAt p) mt
        · rw [processImage_stale env p st nf e h1 hl h3]
          rcases download_image_trace env p e.name
              { st with fs := removeFile st.fs e.name,
                        trace := st.trace ++ [Event.deletedOld e.name],
                        seen := st.seen ++ [e.name] } with h | h
          · exact ⟨[Event.deletedOld e.name, Event.downloadOk e.name],
              by simp [h], by simp [fileEv]⟩
          · exact ⟨[Event.deletedOld e.name, Event.downloadErr e.name],
              by simp [h], by simp [fileEv]⟩
        · rw [processImage_skip env p st nf e h1 hl h3]
          exact ⟨[Event.skippedRecent e.name], by simp, by simp [fileEv]⟩
  · rw [processImage_new env p st nf e h1]
    rcases download_image_trace env p e.name
        { st with seen := st.seen ++ [e.name] } with h | h
    · exact ⟨[Event.downloadOk e.name], by simp [h], by simp [fileEv]⟩
    · exact ⟨[Event.downloadErr e.name], by simp [h], by simp [fileEv]⟩

theorem foldl_trace_delta (env : Env) (p : Nat) (imgs : List Entry) :
    ∀ acc : St × Nat,
      ∃ d, ((imgs.foldl (processImage env p) acc).1).trace = acc.1.trace ++ d ∧
        ∀ ev ∈ d, fileEv ev = true := by
  induction imgs with
  | nil => intro acc; exact ⟨[], by simp, by simp⟩
  | cons e rest ih =>
      intro acc
      obtain ⟨d1, hd1, hf1⟩ := processImage_trace_delta env p acc e
      obtain ⟨d2, hd2, hf2⟩ := ih (processImage env p acc e)
      refine ⟨d1 ++ d2, ?_, ?_⟩
      · rw [List.foldl_cons, hd2, hd1, List.append_assoc]
      · intro ev hev
        rcases List.mem_append.mp hev with h | h
        exacts [hf1 ev h, hf2 ev h]

theorem processPages_trace_delta (env : Env) (p : Nat)
    (pages : List (Option (List Entry))) : ∀ (st : St) (nf : Nat),
    ∃ d, ((processPages env p pages st nf).1).trace = st.trace ++ d ∧
      ∀ ev ∈ d, fileEv ev = true ∨ ev = Event.folderError := by
  induction pages with
  | nil => intro st nf; exact ⟨[], by simp [processPages], by simp⟩
  | cons pg rest ih =>
      intro st nf
      cases pg with
      | none => exact ⟨[Event.folderError], by simp [processPages], by simp⟩
      | some items =>
          have hunf : processPages env p (some items :: rest) st nf =
              processPages env p rest
                ((items.filter (fun f => isImageEntry f)).foldl
                  (processImage env p) (st, nf)).1
                ((items.filter (fun f => isImageEntry f)).foldl
                  (processImage env p) (st, nf)).2 := rfl
          obtain ⟨d1, hd1, hf1⟩ := foldl_trace_delta env p
            (items.filter (fun f => isImageEntry f)) (st, nf)
          obtain ⟨d2, hd2, hf2⟩ := ih
            ((items.filter (fun f => isImageEntry f)).foldl
              (processImage env p) (st, nf)).1
            ((items.filter (fun f => isImageEntry f)).foldl
              (processImage env p) (st, nf)).2
          refine ⟨d1 ++ d2, ?_, ?_⟩
          · rw [hunf, hd2, hd1, List.append_assoc]
          · intro ev hev
            rcases List.mem_append.mp hev with h | h
            exacts [Or.inl (hf1 ev h), hf2 ev h]

theorem passCount_le_passLoop (env : Env) : ∀ (fuel attempt : Nat) (st : St),
    passCount (passLoop env fuel attempt st).trace ≤ passCount st.trace + fuel := by
  intro fuel
  induction fuel with
  | zero => intro attempt st; simp [passLoop]
  | succ fuel ih =>
      intro attempt st
      simp only [passCount] at ih ⊢
      obtain ⟨d, hd, hf⟩ := processPages_trace_delta env attempt (env.listing attempt)
        { st with trace := st.trace ++ [Event.passStart attempt] } 0
      have hdcount : List.countP isPassEv d = 0 :=
        List.countP_eq_zero.mpr (fun ev hev => by
          rcases hf ev hev with h | h
          · simp [fileEv_not_pass h]
          · subst h; simp [isPassEv])
      set r := processPages env attempt (env.listing attempt)
        { st with trace := st.trace ++ [Event.passStart attempt] } 0 with hr
      have hrt : List.countP isPassEv r.1.trace =
          List.countP isPassEv st.trace + 1 := by
        simp [hd, List.countP_append, hdcount, isPassEv]
      have hunf : passLoop env (fuel + 1) attempt st =
          (if r.2.2 then r.1
           else if r.2.1 = 0 then
             { r.1 with trace := r.1.trace ++ [Event.noNewFiles attempt] }
           else passLoop env fuel (attempt + 1) r.1) := rfl
      rw [hunf]
      cases hb : r.2.2 with
      | true =>
          simp only [hb, if_true]
          omega
      | false =>
          simp only [hb, Bool.false_eq_true, if_false]
          by_cases hz : r.2.1 = 0
          · simp only [hz, if_true]
            simp only [List.countP_append, List.countP_cons, List.countP_nil, isPassEv,
              Bool.false_eq_true, if_false, Nat.add_zero, Nat.zero_add]
            omega
          · simp only [hz, if_false]
            have := ih (attempt + 1) r.1
            omega

end TraceLemmas

section Claim9

/-- C9 (confirmed): for every folder and every environment (hence every
sequence of remote listing results and download outcomes), the pass
loop of `process_folder` starts at most `maxPasses = 3` passes: the
final trace contains at most 3 pass-start lines. -/
theorem c9_pass_bound (env : Env) (fs0 : FS) :
    passCount (process_folder env fs0).trace ≤ maxPasses := by
  have h := passCount_le_passLoop env maxPasses 0 (initSt fs0)
  simpa [process_folder, initSt, passCount] using h

end Claim9

section Claim1

/-- The invariant behind C1: every image name the loop has iterated
over is in the `existing_files` set, and every name in that set either
denotes a present file or has a download-error line in the log. -/
def InvC1 (st : St) : Prop :=
  (∀ x ∈ st.seen, x ∈ st.existing) ∧
  (∀ x ∈ st.existing,
    (lookupFile st.fs x).isSome = true ∨ Event.downloadErr x ∈ st.trace)

theorem invC1_addTrace (st : St) (evs : List Event) (h : InvC1 st) :
    InvC1 { st with trace := st.trace ++ evs } :=
  ⟨h.1, fun x hx => (h.2 x hx).imp id (fun hh => List.mem_append_left _ hh)⟩

theorem invC1_init (fs0 : FS) : InvC1 (initSt fs0) := by
  constructor
  · intro x hx
    simp [initSt] at hx
  · intro x hx
    exact Or.inl (lookupFile_isSome_of_mem (by simpa [initSt] using hx))

theorem invC1_processImage (env : Env) (p : Nat) (acc : St × Nat) (e : Entry)
    (h : InvC1 acc.1) : InvC1 (processImage env p acc e).1 := by
  obtain ⟨st, nf⟩ := acc
  obtain ⟨h1, h2⟩ := h
  by_cases hm : e.name ∈ st.existing
  · cases hl : lookupFile st.fs e.name with
    | none =>
        rw [processImage_absent env p st nf e hm hl]
        refine ⟨fun x hx => ?_, fun x hx => h2 x hx⟩
        rcases List.mem_append.mp hx with hx | hx
        · exact h1 x hx
        · simp at hx; subst hx; exact hm
    | some mt =>
        by_cases h3 : 3 < ageDays (env.nowAt p) mt
        · rw [processImage_stale env p st nf e hm hl h3]
          refine ⟨fun x hx => ?_, fun x hx => ?_⟩
          · rw [download_image_seen] at hx
            rw [download_image_existing]
            rcases List.mem_append.mp hx with hx | hx
            · exact h1 x hx
            · simp at hx; subst hx; exact hm
          · rw [download_image_existing] at hx
            by_cases hxe : x = e.name
            · subst hxe
              rcases download_image_fs env p e.name
                  { st with fs := removeFile st.fs e.name,
                            trace := st.trace ++ [Event.deletedOld e.name],
                            seen := st.seen ++ [e.name] } with ⟨hfs, hlk⟩ | ⟨hfs, htr⟩
              · exact Or.inl (by simp [hlk])
              · refine Or.inr ?_
                rw [htr]
                exact List.mem_append_right _ (by simp)
            · rcases h2 x hx with hh | hh
              · refine Or.inl ?_
                rw [download_image_lookup_ne env p e.name _ hxe]
                show (lookupFile (removeFile st.fs e.name) x).isSome = true
                rw [lookupFile_removeFile_ne _ hxe]
                exact hh
              · refine Or.inr ?_
                rcases download_image_trace env p e.name
                    { st with fs := removeFile st.fs e.name,
                              trace := st.trace ++ [Event.deletedOld e.name],
                              seen := st.seen ++ [e.name] } with htr | htr <;>
                · rw [htr]
                  exact List.mem_append_left _ (List.mem_append_left _ hh)
        · rw [processImage_skip env p st nf e hm hl h3]
          refine ⟨fun x hx => ?_, fun x hx => ?_⟩
          · rcases List.mem_append.mp hx with hx | hx
            · exact h1 x hx
            · simp at hx; subst hx; exact hm
          · rcases h2 x hx with hh | hh
            · exact Or.inl hh
            · exact Or.inr (List.mem_append_left _ hh)
  · rw [processImage_new env p st nf e hm]
    refine ⟨fun x hx => ?_, fun x hx => ?_⟩
    · show x ∈ (download_image env p e.name
        { st with seen := st.seen ++ [e.name] }).existing ++ [e.name]
      rw [download_image_existing]
      rw [show ({ download_image env p e.name
          { st with seen := st.seen ++ [e.name] } with
          existing := (download_image env p e.name
            { st with seen := st.seen ++ [e.name] }).existing ++ [e.name] } : St).seen
          = (download_image env p e.name
              { st with seen := st.seen ++ [e.name] }).seen from rfl,
        download_image_seen] at hx
      rcases List.mem_append.mp hx with hx | hx
      · exact List.mem_append_left _ (h1 x hx)
      · exact List.mem_append_right _ hx
    · rw [show ({ download_image env p e.name
          { st with seen := st.seen ++ [e.name] } with
          existing := (download_image env p e.name
            { st with seen := st.seen ++ [e.name] }).existing ++ [e.name] } : St).existing
          = (download_image env p e.name
              { st with seen := st.seen ++ [e.name] }).existing ++ [e.name] from rfl,
        download_image_existing] at hx
      rcases List.mem_append.mp hx with hx | hx
      · have hxe : x ≠ e.name := fun hh => hm (hh ▸ hx)
        rcases h2 x hx with hh | hh
        · refine Or.inl ?_
          show (lookupFile (download_image env p e.name
            { st with seen := st.seen ++ [e.name] }).fs x).isSome = true
          rw [download_image_lookup_ne env p e.name _ hxe]
          exact hh
        · refine Or.inr ?_
          show Event.downloadErr x ∈ (download_image env p e.name
            { st with seen := st.seen ++ [e.name] }).trace
          rcases download_image_trace env p e.name
              { st with seen := st.seen ++ [e.name] } with htr | htr <;>
          · rw [htr]
            exact List.mem_append_left _ hh
      · simp at hx
        subst hx
        rcases download_image_fs env p e.name
            { st with seen := st.seen ++ [e.name] } with ⟨hfs, hlk⟩ | ⟨hfs, htr⟩
        · exact Or.inl (by simp [hlk])
        · refine Or.inr ?_
          show Event.downloadErr e.name ∈ (download_image env p e.name
            { st with seen := st.seen ++ [e.name] }).trace
          rw [htr]
          exact List.mem_append_right _ (by simp)

theorem invC1_foldl (env : Env) (p : Nat) (imgs : List Entry) :
    ∀ acc : St × Nat, InvC1 acc.1 →
      InvC1 ((imgs.foldl (processImage env p) acc).1) := by
  induction imgs with
  | nil => intro acc h; exact h
  | cons e rest ih =>
      intro acc h
      exact ih (processImage env p acc e) (invC1_processImage env p acc e h)

theorem invC1_processPages (env : Env) (p : Nat)
    (pages : List (Option (List Entry))) : ∀ (st : St) (nf : Nat),
    InvC1 st → InvC1 ((processPages env p pages st nf).1) := by
  induction pages with
  | nil => intro st nf h; exact h
  | cons pg rest ih =>
      intro st nf h
      cases pg with
      | none => exact invC1_addTrace st [Event.folderError] h
      | some items =>
          have hunf : processPages env p (some items :: rest) st nf =
              processPages env p rest
                ((items.filter (fun f => isImageEntry f)).foldl
                  (processImage env p) (st, nf)).1
                ((items.filter (fun f => isImageEntry f)).foldl
                  (processImage env p) (st, nf)).2 := rfl
          rw [hunf]
          exact ih _ _ (invC1_foldl env p _ (st, nf) h)

theorem invC1_passLoop (env : Env) : ∀ (fuel attempt : Nat) (st : St),
    InvC1 st → InvC1 (passLoop env fuel attempt st) := by
  intro fuel
  induction fuel with
  | zero => intro attempt st h; exact h
  | succ fuel ih =>
      intro attempt st h
      set r := processPages env attempt (env.listing attempt)
        { st with trace := st.trace ++ [Event.passStart attempt] } 0 with hr
      have hR : InvC1 r.1 := invC1_processPages env attempt (env.listing attempt)
        { st with trace := st.trace ++ [Event.passStart attempt] } 0
        (invC1_addTrace st [Event.passStart attempt] h)
      have hunf : passLoop env (fuel + 1) attempt st =
          (if r.2.2 then r.1
           else if r.2.1 = 0 then
             { r.1 with trace := r.1.trace ++ [Event.noNewFiles attempt] }
           else passLoop env fuel (attempt + 1) r.1) := rfl
      rw [hunf]
      cases hb : r.2.2 with
      | true => simpa [hb] using hR
      | false =>
          simp only [hb, Bool.false_eq_true, if_false]
          by_cases hz : r.2.1 = 0
          · simp only [hz, if_true]
            exact invC1_addTrace r.1 [Event.noNewFiles attempt] hR
          · simp only [hz, if_false]
            exact ih (attempt + 1) r.1 hR

/-- C1 (confirmed): once the pass loop of `process_folder` has ended,
every remote image entry the run listed (i.e. every image iterated
over in a successfully fetched page, recorded in the ghost `seen`
list) either has a file present at its name in the folder's directory
or has had a download-error line logged for it; no listed image is
left both absent locally and unlogged. -/
theorem c1_listed_present_or_logged (env : Env) (fs0 : FS) (x : String)
    (hx : x ∈ (process_folder env fs0).seen) :
    (lookupFile (process_folder env fs0).fs x).isSome = true ∨
    Event.downloadErr x ∈ (process_folder env fs0).trace := by
  have h := invC1_passLoop env maxPasses 0 (initSt fs0) (invC1_init fs0)
  exact h.2 x (h.1 x hx)

/-- One folder with one remote image, downloads succeed. -/
def envC1 : Env :=
  { listing := fun p => if p = 0 then [some [⟨"1", "a.jpg", "image/jpeg"⟩]] else [some []],
    dl := fun _ => DlResult.ok,
    nowAt := fun _ => 0 }

theorem c1_witness :
    "a.jpg" ∈ (process_folder envC1 []).seen ∧
    ((lookupFile (process_folder envC1 []).fs "a.jpg").isSome = true ∨
     Event.downloadErr "a.jpg" ∈ (process_folder envC1 []).trace) :=
  ⟨by decide, c1_listed_present_or_logged envC1 [] "a.jpg" (by decide)⟩

end Claim1

section Claim3

theorem delCount_append (n : String) (tr d : List Event) :
    delCount n (tr ++ d) = delCount n tr + delCount n d := by
  simp [delCount, List.countP_append]

theorem dlEvCount_append (n : String) (tr d : List Event) :
    dlEvCount n (tr ++ d) = dlEvCount n tr + dlEvCount n d := by
  simp [dlEvCount, List.countP_append]

theorem invC3_processImage (env : Env) (p : Nat) (acc : St × Nat) (e : Entry)
    (n : String) (m : Nat) (hfresh : ¬ 3 < ageDays (env.nowAt p) m)
    (hmem : n ∈ acc.1.existing) (hlk : lookupFile acc.1.fs n = some m) :
    n ∈ (processImage env p acc e).1.existing ∧
    lookupFile (processImage env p acc e).1.fs n = some m ∧
    delCount n (processImage env p acc e).1.trace = delCount n acc.1.trace ∧
    dlEvCount n (processImage env p acc e).1.trace = dlEvCount n acc.1.trace := by
  obtain ⟨st, nf⟩ := acc
  by_cases hen : e.name = n
  · subst hen
    rw [processImage_skip env p st nf e hmem hlk hfresh]
    refine ⟨hmem, hlk, ?_, ?_⟩ <;>
      simp [delCount, dlEvCount, List.countP_append, List.countP_cons,
        isDelFor, isDlFor]
  · have hne : n ≠ e.name := fun hh => hen hh.symm
    have hbe : (e.name == n) = false := beq_eq_false_iff_ne.mpr hen
    by_cases hm : e.name ∈ st.existing
    · cases hl : lookupFile st.fs e.name with
      | none =>
          rw [processImage_absent env p st nf e hm hl]
          exact ⟨hmem, hlk, rfl, rfl⟩
      | some mt =>
          by_cases h3 : 3 < ageDays (env.nowAt p) mt
          · rw [processImage_stale env p st nf e hm hl h3]
            have ht := download_image_trace env p e.name
              { st with fs := removeFile st.fs e.name,
                        trace := st.trace ++ [Event.deletedOld e.name],
                        seen := st.seen ++ [e.name] }
            refine ⟨?_, ?_, ?_, ?_⟩
            · rw [download_image_existing]; exact hmem
            · rw [download_image_lookup_ne env p e.name _ hne]
              show lookupFile (removeFile st.fs e.name) n = some m
              rw [lookupFile_removeFile_ne _ hne]
              exact hlk
            · rcases ht with htr | htr <;> rw [htr] <;>
                simp [delCount, List.countP_append, List.countP_cons, isDelFor, hbe]
            · rcases ht with htr | htr <;> rw [htr] <;>
                simp [dlEvCount, List.countP_append, List.countP_cons,
                  isDelFor, isDlFor, hbe]
          · rw [processImage_skip env p st nf e hm hl h3]
            refine ⟨hmem, hlk, ?_, ?_⟩ <;>
              simp [delCount, dlEvCount, List.countP_append, List.countP_cons,
                isDelFor, isDlFor]
    · rw [processImage_new env p st nf e hm]
      have ht := download_image_trace env p e.name
        { st with seen := st.seen ++ [e.name] }
      refine ⟨?_, ?_, ?_, ?_⟩
      · show n ∈ (download_image env p e.name
          { st with seen := st.seen ++ [e.name] }).existing ++ [e.name]
        rw [download_image_existing]
        exact List.mem_append_left _ hmem
      · show lookupFile (download_image env p e.name
          { st with seen := st.seen ++ [e.name] }).fs n = some m
        rw [download_image_lookup_ne env p e.name _ hne]
        exact hlk
      · show delCount n (download_image env p e.name
          { st with seen := st.seen ++ [e.name] }).trace = delCount n st.trace
        rcases ht with htr | htr <;> rw [htr] <;>
          simp [delCount, List.countP_append, List.countP_cons, isDelFor]
      · show dlEvCount n (download_image env p e.name
          { st with seen := st.seen ++ [e.name] }).trace = dlEvCount n st.trace
        rcases ht with htr | htr <;> rw [htr] <;>
          simp [dlEvCount, List.countP_append, List.countP_cons, isDlFor, hbe]

theorem invC3_foldl (env : Env) (p : Nat) (imgs : List Entry) (n : String)
    (m : Nat) (hfresh : ¬ 3 < ageDays (env.nowAt p) m) :
    ∀ acc : St × Nat, n ∈ acc.1.existing → lookupFile acc.1.fs n = some m →
      n ∈ ((imgs.foldl (processImage env p) acc).1).existing ∧
      lookupFile ((imgs.foldl (processImage env p) acc).1).fs n = some m ∧
      delCount n ((imgs.foldl (processImage env p) acc).1).trace =
        delCount n acc.1.trace ∧
      dlEvCount n ((imgs.foldl (processImage env p) acc).1).trace =
        dlEvCount n acc.1.trace := by
  induction imgs with
  | nil => intro acc h1 h2; exact ⟨h1, h2, rfl, rfl⟩
  | cons e rest ih =>
      intro acc h1 h2
      obtain ⟨g1, g2, g3, g4⟩ := invC3_processImage env p acc e n m hfresh h1 h2
      obtain ⟨k1, k2, k3, k4⟩ := ih (processImage env p acc e) g1 g2
      exact ⟨k1, k2, by rw [List.foldl_cons, k3, g3], by rw [List.foldl_cons, k4, g4]⟩

theorem invC3_processPages (env : Env) (p : Nat)
    (pages : List (Option (List Entry))) (n : String) (m : Nat)
    (hfresh : ¬ 3 < ageDays (env.nowAt p) m) : ∀ (st : St) (nf : Nat),
    n ∈ st.existing → lookupFile st.fs n = some m →
      n ∈ ((processPages env p pages st nf).1).existing ∧
      lookupFile ((processPages env p pages st nf).1).fs n = some m ∧
      delCount n ((processPages env p pages st nf).1).trace = delCount n st.trace ∧
      dlEvCount n ((processPages env p pages st nf).1).trace = dlEvCount n st.trace := by
  induction pages with
  | nil => intro st nf h1 h2; exact ⟨h1, h2, rfl, rfl⟩
  | cons pg rest ih =>
      intro st nf h1 h2
      cases pg with
      | none =>
          refine ⟨h1, h2, ?_, ?_⟩ <;>
            simp [delCount, dlEvCount, List.countP_append, List.countP_cons,
              isDelFor, isDlFor, processPages]
      | some items =>
          have hunf : processPages env p (some items :: rest) st nf =
              processPages env p rest
                ((items.filter (fun f => isImageEntry f)).foldl
                  (processImage env p) (st, nf)).1
                ((items.filter (fun f => isImageEntry f)).foldl
                  (processImage env p) (st, nf)).2 := rfl
          obtain ⟨g1, g2, g3, g4⟩ := invC3_foldl env p
            (items.filter (fun f => isImageEntry f)) n m hfresh (st, nf) h1 h2
          obtain ⟨k1, k2, k3, k4⟩ := ih _ _ g1 g2
          rw [hunf]
          exact ⟨k1, k2, by rw [k3, g3], by rw [k4, g4]⟩

theorem invC3_passLoop (env : Env) (n : String) (m : Nat)
    (hfresh : ∀ p, ¬ 3 < ageDays (env.nowAt p) m) :
    ∀ (fuel attempt : Nat) (st : St),
    n ∈ st.existing → lookupFile st.fs n = some m →
      lookupFile (passLoop env fuel attempt st).fs n = some m ∧
      delCount n (passLoop env fuel attempt st).trace = delCount n st.trace ∧
      dlEvCount n (passLoop env fuel attempt st).trace = dlEvCount n st.trace := by
  intro fuel
  induction fuel with
  | zero => intro attempt st h1 h2; exact ⟨h2, rfl, rfl⟩
  | succ fuel ih =>
      intro attempt st h1 h2
      set r := processPages env attempt (env.listing attempt)
        { st with trace := st.trace ++ [Event.passStart attempt] } 0 with hr
      obtain ⟨g1, g2, g3, g4⟩ := invC3_processPages env attempt (env.listing attempt)
        n m (hfresh attempt)
        { st with trace := st.trace ++ [Event.passStart attempt] } 0 h1 h2
      have hc3 : delCount n r.1.trace = delCount n st.trace := by
        rw [g3]
        simp [delCount, List.countP_append, List.countP_cons, isDelFor]
      have hc4 : dlEvCount n r.1.trace = dlEvCount n st.trace := by
        rw [g4]
        simp [dlEvCount, List.countP_append, List.countP_cons, isDlFor]
      have hunf : passLoop env (fuel + 1) attempt st =
          (if r.2.2 then r.1
           else if r.2.1 = 0 then
             { r.1 with trace := r.1.trace ++ [Event.noNewFiles attempt] }
           else passLoop env fuel (attempt + 1) r.1) := rfl
      rw [hunf]
      cases hb : r.2.2 with
      | true =>
          simp only [hb, if_true]
          exact ⟨g2, hc3, hc4⟩
      | false =>
          simp only [hb, Bool.false_eq_true, if_false]
          by_cases hz : r.2.1 = 0
          · simp only [hz, if_true]
            refine ⟨g2, ?_, ?_⟩
            · show delCount n (r.1.trace ++ [Event.noNewFiles attempt]) =
                delCount n st.trace
              rw [delCount_append, hc3]
              simp [delCount, List.countP_cons, List.countP_nil, isDelFor]
            · show dlEvCount n (r.1.trace ++ [Event.noNewFiles attempt]) =
                dlEvCount n st.trace
              rw [dlEvCount_append, hc4]
              simp [dlEvCount, List.countP_cons, List.countP_nil, isDlFor]
          · simp only [hz, if_false]
            obtain ⟨k2, k3, k4⟩ := ih (attempt + 1) r.1 g1 g2
            exact ⟨k2, by rw [k3, hc3], by rw [k4, hc4]⟩

/-- C3 (confirmed): a local file present at the snapshot whose age
stays under 3 days (in seconds: `now − mtime < 3·86400` at every
pass) is never deleted and never re-downloaded by any pass of
`process_folder`: it survives with its mtime unchanged, and the final
trace holds no deletion line and no download line for it. -/
theorem c3_fresh_untouched (env : Env) (fs0 : FS) (n : String) (m : Nat)
    (hlk : lookupFile fs0 n = some m)
    (hfresh : ∀ p, env.nowAt p - m < 3 * secondsPerDay) :
    lookupFile (process_folder env fs0).fs n = some m ∧
    delCount n (process_folder env fs0).trace = 0 ∧
    dlEvCount n (process_folder env fs0).trace = 0 := by
  have hf : ∀ p, ¬ 3 < ageDays (env.nowAt p) m := by
    intro p hgt
    have hd : ageDays (env.nowAt p) m < 3 := by
      rw [ageDays]
      exact (Nat.div_lt_iff_lt_mul (by decide : 0 < secondsPerDay)).mpr
        (by have := hfresh p; omega)
    omega
  have hmem : n ∈ (initSt fs0).existing := mem_fileNames_of_lookup hlk
  have h := invC3_passLoop env n m hf maxPasses 0 (initSt fs0) hmem hlk
  simpa [process_folder, initSt, delCount, dlEvCount] using h

/-- One folder, one remote image matching a one-day-old local file. -/
def envC3 : Env :=
  { listing := fun _ => [some [⟨"1", "a.jpg", "image/jpeg"⟩]],
    dl := fun _ => DlResult.ok,
    nowAt := fun _ => 86400 }

theorem c3_witness :
    (lookupFile [("a.jpg", 0)] "a.jpg" = some 0 ∧
     ∀ p, envC3.nowAt p - 0 < 3 * secondsPerDay) ∧
    (lookupFile (process_folder envC3 [("a.jpg", 0)]).fs "a.jpg" = some 0 ∧
     delCount "a.jpg" (process_folder envC3 [("a.jpg", 0)]).trace = 0 ∧
     dlEvCount "a.jpg" (process_folder envC3 [("a.jpg", 0)]).trace = 0) :=
  ⟨⟨by decide, fun _ => show 86400 - 0 < 3 * secondsPerDay by decide⟩,
   c3_fresh_untouched envC3 [("a.jpg", 0)] "a.jpg" 0 (by decide)
     (fun _ => show 86400 - 0 < 3 * secondsPerDay by decide)⟩

end Claim3

section Claim2

theorem processImage_nf_mono (env : Env) (p : Nat) (acc : St × Nat) (e : Entry) :
    acc.2 ≤ (processImage env p acc e).2 := by
  obtain ⟨st, nf⟩ := acc
  by_cases hm : e.name ∈ st.existing
  · cases hl : lookupFile st.fs e.name with
    | none => rw [processImage_absent env p st nf e hm hl]
    | some mt =>
        by_cases h3 : 3 < ageDays (env.nowAt p) mt
        · rw [processImage_stale env p st nf e hm hl h3]
          exact Nat.le_succ _
        · rw [processImage_skip env p st nf e hm hl h3]
  · rw [processImage_new env p st nf e hm]
    exact Nat.le_succ _

/-- Processing an image entry named differently from `n` changes
nothing about `n`: not its file, its membership in the snapshot, nor
any deletion/download line for it; `new_files` can only grow. -/
theorem c2_other (env : Env) (p : Nat) (acc : St × Nat) (e : Entry) (n : String)
    (hne : e.name ≠ n) :
    lookupFile (processImage env p acc e).1.fs n = lookupFile acc.1.fs n ∧
    (n ∈ acc.1.existing → n ∈ (processImage env p acc e).1.existing) ∧
    delCount n (processImage env p acc e).1.trace = delCount n acc.1.trace ∧
    dlEvCount n (processImage env p acc e).1.trace = dlEvCount n acc.1.trace ∧
    acc.2 ≤ (processImage env p acc e).2 := by
  obtain ⟨st, nf⟩ := acc
  have hnx : n ≠ e.name := fun hh => hne hh.symm
  have hbe : (e.name == n) = false := beq_eq_false_iff_ne.mpr hne
  by_cases hm : e.name ∈ st.existing
  · cases hl : lookupFile st.fs e.name with
    | none =>
        rw [processImage_absent env p st nf e hm hl]
        exact ⟨rfl, id, rfl, rfl, Nat.le_refl _⟩
    | some mt =>
        by_cases h3 : 3 < ageDays (env.nowAt p) mt
        · rw [processImage_stale env p st nf e hm hl h3]
          have ht := download_image_trace env p e.name
            { st with fs := removeFile st.fs e.name,
                      trace := st.trace ++ [Event.deletedOld e.name],
                      seen := st.seen ++ [e.name] }
          refine ⟨?_, ?_, ?_, ?_, Nat.le_succ _⟩
          · rw [download_image_lookup_ne env p e.name _ hnx]
            show lookupFile (removeFile st.fs e.name) n = lookupFile st.fs n
            exact lookupFile_removeFile_ne _ hnx
          · intro h
            rw [download_image_existing]
            exact h
          · rcases ht with htr | htr <;> rw [htr] <;>
              simp [delCount, List.countP_append, List.countP_cons, isDelFor, hbe]
          · rcases ht with htr | htr <;> rw [htr] <;>
              simp [dlEvCount, List.countP_append, List.countP_cons,
                isDelFor, isDlFor, hbe]
        · rw [processImage_skip env p st nf e hm hl h3]
          refine ⟨rfl, id, ?_, ?_, Nat.le_refl _⟩ <;>
            simp [delCount, dlEvCount, List.countP_append, List.countP_cons,
              isDelFor, isDlFor]
  · rw [processImage_new env p st nf e hm]
    have ht := download_image_trace env p e.name
      { st with seen := st.seen ++ [e.name] }
    refine ⟨?_, ?_, ?_, ?_, Nat.le_succ _⟩
    · show lookupFile (download_image env p e.name
        { st with seen := st.seen ++ [e.name] }).fs n = lookupFile st.fs n
      exact download_image_lookup_ne env p e.name _ hnx
    · intro h
      show n ∈ (download_image env p e.name
        { st with seen := st.seen ++ [e.name] }).existing ++ [e.name]
      rw [download_image_existing]
      exact List.mem_append_left _ h
    · show delCount n (download_image env p e.name
        { st with seen := st.seen ++ [e.name] }).trace = delCount n st.trace
      rcases ht with htr | htr <;> rw [htr] <;>
        simp [delCount, List.countP_append, List.countP_cons, isDelFor]
    · show dlEvCount n (download_image env p e.name
        { st with seen := st.seen ++ [e.name] }).trace = dlEvCount n st.trace
      rcases ht with htr | htr <;> rw [htr] <;>
        simp [dlEvCount, List.countP_append, List.countP_cons, isDlFor, hbe]

/-- Processing the stale image itself: one deletion line, one download
line, file afterwards fresh (mtime `now`) or absent, counted as new. -/
theorem c2_hit_stale (env : Env) (p : Nat) (st : St) (nf : Nat) (e : Entry)
    (n : String) (m : Nat) (he : e.name = n) (hmem : n ∈ st.existing)
    (hlk : lookupFile st.fs n = some m) (hage : 3 < ageDays (env.nowAt p) m) :
    (lookupFile (processImage env p (st, nf) e).1.fs n = some (env.nowAt p) ∨
     lookupFile (processImage env p (st, nf) e).1.fs n = none) ∧
    n ∈ (processImage env p (st, nf) e).1.existing ∧
    delCount n (processImage env p (st, nf) e).1.trace = delCount n st.trace + 1 ∧
    dlEvCount n (processImage env p (st, nf) e).1.trace = dlEvCount n st.trace + 1 ∧
    (processImage env p (st, nf) e).2 = nf + 1 := by
  subst he
  rw [processImage_stale env p st nf e hmem hlk hage]
  have hbe : (e.name == e.name) = true := beq_self_eq_true e.name
  have ht := download_image_trace env p e.name
    { st with fs := removeFile st.fs e.name,
              trace := st.trace ++ [Event.deletedOld e.name],
              seen := st.seen ++ [e.name] }
  refine ⟨?_, ?_, ?_, ?_, rfl⟩
  · rcases download_image_fs env p e.name
        { st with fs := removeFile st.fs e.name,
                  trace := st.trace ++ [Event.deletedOld e.name],
                  seen := st.seen ++ [e.name] } with ⟨hfs, hlkk⟩ | ⟨hfs, htr⟩
    · exact Or.inl hlkk
    · refine Or.inr ?_
      rw [hfs]
      show lookupFile (removeFile st.fs e.name) e.name = none
      exact lookupFile_removeFile_self _ _
  · rw [download_image_existing]
    exact hmem
  · rcases ht with htr | htr <;> rw [htr] <;>
      simp [delCount, List.countP_append, List.countP_cons, isDelFor, hbe]
  · rcases ht with htr | htr <;> rw [htr] <;>
      simp [dlEvCount, List.countP_append, List.countP_cons,
        isDelFor, isDlFor, hbe]

/-- Re-processing the image after its within-pass redownload (or
failed redownload): the fresh copy is skipped as recent (age 0) and a
missing copy is passed over silently — no further deletion or
download. -/
theorem c2_hit_done (env : Env) (p : Nat) (st : St) (nf : Nat) (e : Entry)
    (n : String) (he : e.name = n) (hmem : n ∈ st.existing)
    (hlk : lookupFile st.fs n = some (env.nowAt p) ∨ lookupFile st.fs n = none) :
    (lookupFile (processImage env p (st, nf) e).1.fs n = some (env.nowAt p) ∨
     lookupFile (processImage env p (st, nf) e).1.fs n = none) ∧
    n ∈ (processImage env p (st, nf) e).1.existing ∧
    delCount n (processImage env p (st, nf) e).1.trace = delCount n st.trace ∧
    dlEvCount n (processImage env p (st, nf) e).1.trace = dlEvCount n st.trace ∧
    nf ≤ (processImage env p (st, nf) e).2 := by
  subst he
  rcases hlk with hlk | hlk
  · have hnot : ¬ 3 < ageDays (env.nowAt p) (env.nowAt p) := by
      simp [ageDays]
    rw [processImage_skip env p st nf e hmem hlk hnot]
    refine ⟨Or.inl hlk, hmem, ?_, ?_, Nat.le_refl _⟩ <;>
      simp [delCount, dlEvCount, List.countP_append, List.countP_cons,
        isDelFor, isDlFor]
  · rw [processImage_absent env p st nf e hmem hlk]
    exact ⟨Or.inr hlk, hmem, rfl, rfl, Nat.le_refl _⟩

theorem c2_foldl_done (env : Env) (p : Nat) (imgs : List Entry) (n : String) :
    ∀ acc : St × Nat, n ∈ acc.1.existing →
      (lookupFile acc.1.fs n = some (env.nowAt p) ∨
       lookupFile acc.1.fs n = none) →
      (lookupFile ((imgs.foldl (processImage env p) acc).1).fs n =
          some (env.nowAt p) ∨
       lookupFile ((imgs.foldl (processImage env p) acc).1).fs n = none) ∧
      n ∈ ((imgs.foldl (processImage env p) acc).1).existing ∧
      delCount n ((imgs.foldl (processImage env p) acc).1).trace =
        delCount n acc.1.trace ∧
      dlEvCount n ((imgs.foldl (processImage env p) acc).1).trace =
        dlEvCount n acc.1.trace ∧
      acc.2 ≤ (imgs.foldl (processImage env p) acc).2 := by
  induction imgs with
  | nil => intro acc h1 h2; exact ⟨h2, h1, rfl, rfl, Nat.le_refl _⟩
  | cons e rest ih =>
      intro acc h1 h2
      by_cases he : e.name = n
      · obtain ⟨st, nf⟩ := acc
        obtain ⟨g1, g2, g3, g4, g5⟩ := c2_hit_done env p st nf e n he h1 h2
        obtain ⟨k1, k2, k3, k4, k5⟩ := ih (processImage env p (st, nf) e) g2 g1
        exact ⟨k1, k2, by rw [List.foldl_cons, k3, g3], by rw [List.foldl_cons, k4, g4],
          Nat.le_trans g5 k5⟩
      · obtain ⟨g1, g2, g3, g4, g5⟩ := c2_other env p acc e n he
        obtain ⟨k1, k2, k3, k4, k5⟩ := ih (processImage env p acc e) (g2 h1)
          (by rw [g1]; exact h2)
        exact ⟨k1, k2, by rw [List.foldl_cons, k3, g3], by rw [List.foldl_cons, k4, g4],
          Nat.le_trans g5 k5⟩

theorem c2_foldl_hit (env : Env) (p : Nat) (imgs : List Entry) (n : String)
    (m : Nat) (hage : 3 < ageDays (env.nowAt p) m) :
    ∀ acc : St × Nat, n ∈ acc.1.existing → lookupFile acc.1.fs n = some m →
      n ∈ imgs.map Entry.name →
      (lookupFile ((imgs.foldl (processImage env p) acc).1).fs n =
          some (env.nowAt p) ∨
       lookupFile ((imgs.foldl (processImage env p) acc).1).fs n = none) ∧
      n ∈ ((imgs.foldl (processImage env p) acc).1).existing ∧
      delCount n ((imgs.foldl (processImage env p) acc).1).trace =
        delCount n acc.1.trace + 1 ∧
      dlEvCount n ((imgs.foldl (processImage env p) acc).1).trace =
        dlEvCount n acc.1.trace + 1 ∧
      acc.2 + 1 ≤ (imgs.foldl (processImage env p) acc).2 := by
  induction imgs with
  | nil => intro acc h1 h2 hin; simp at hin
  | cons e rest ih =>
      intro acc h1 h2 hin
      by_cases he : e.name = n
      · obtain ⟨st, nf⟩ := acc
        obtain ⟨g1, g2, g3, g4, g5⟩ := c2_hit_stale env p st nf e n m he h1 h2 hage
        obtain ⟨k1, k2, k3, k4, k5⟩ := c2_foldl_done env p rest n
          (processImage env p (st, nf) e) g2 g1
        refine ⟨k1, k2, by rw [List.foldl_cons, k3, g3],
          by rw [List.foldl_cons, k4, g4], ?_⟩
        rw [List.foldl_cons]
        calc nf + 1 = (processImage env p (st, nf) e).2 := g5.symm
          _ ≤ _ := k5
      · obtain ⟨g1, g2, g3, g4, g5⟩ := c2_other env p acc e n he
        have hin' : n ∈ rest.map Entry.name := by
          rcases List.mem_map.mp hin with ⟨a, ha, hna⟩
          rcases List.mem_cons.mp ha with ha | ha
          · exact absurd (ha ▸ hna) he
          · exact List.mem_map.mpr ⟨a, ha, hna⟩
        obtain ⟨k1, k2, k3, k4, k5⟩ := ih (processImage env p acc e) (g2 h1)
          (by rw [g1]; exact h2) hin'
        refine ⟨k1, k2, by rw [List.foldl_cons, k3, g3],
          by rw [List.foldl_cons, k4, g4], ?_⟩
        rw [List.foldl_cons]
        exact Nat.le_trans (Nat.add_le_add_right g5 1) k5

theorem c2_pages_done (env : Env) (p : Nat)
    (pages : List (Option (List Entry))) (n : String) :
    ∀ (st : St) (nf : Nat), n ∈ st.existing →
      (lookupFile st.fs n = some (env.nowAt p) ∨ lookupFile st.fs n = none) →
      delCount n ((processPages env p pages st nf).1).trace = delCount n st.trace ∧
      dlEvCount n ((processPages env p pages st nf).1).trace = dlEvCount n st.trace ∧
      nf ≤ (processPages env p pages st nf).2.1 := by
  induction pages with
  | nil => intro st nf h1 h2; exact ⟨rfl, rfl, Nat.le_refl _⟩
  | cons pg rest ih =>
      intro st nf h1 h2
      cases pg with
      | none =>
          refine ⟨?_, ?_, Nat.le_refl _⟩ <;>
            simp [delCount, dlEvCount, List.countP_append, List.countP_cons,
              isDelFor, isDlFor, processPages]
      | some items =>
          have hunf : processPages env p (some items :: rest) st nf =
              processPages env p rest
                ((items.filter (fun f => isImageEntry f)).foldl
                  (processImage env p) (st, nf)).1
                ((items.filter (fun f => isImageEntry f)).foldl
                  (processImage env p) (st, nf)).2 := rfl
          obtain ⟨g1, g2, g3, g4, g5⟩ := c2_foldl_done env p
            (items.filter (fun f => isImageEntry f)) n (st, nf) h1 h2
          obtain ⟨k3, k4, k5⟩ := ih _ _ g2 g1
          rw [hunf]
          exact ⟨by rw [k3, g3], by rw [k4, g4], Nat.le_trans g5 k5⟩

theorem passImageNames_cons_some (items : List Entry)
    (rest : List (Option (List Entry))) :
    passImageNames (some items :: rest) =
      ((items.filter (fun f => isImageEntry f)).map Entry.name) ++
        passImageNames rest := by
  simp [passImageNames]

theorem c2_foldl_miss (env : Env) (p : Nat) (imgs : List Entry) (n : String)
    (m : Nat) :
    ∀ acc : St × Nat, (∀ e ∈ imgs, e.name ≠ n) →
      n ∈ acc.1.existing → lookupFile acc.1.fs n = some m →
      lookupFile ((imgs.foldl (processImage env p) acc).1).fs n = some m ∧
      n ∈ ((imgs.foldl (processImage env p) acc).1).existing ∧
      delCount n ((imgs.foldl (processImage env p) acc).1).trace =
        delCount n acc.1.trace ∧
      dlEvCount n ((imgs.foldl (processImage env p) acc).1).trace =
        dlEvCount n acc.1.trace ∧
      acc.2 ≤ (imgs.foldl (processImage env p) acc).2 := by
  induction imgs with
  | nil => intro acc hmiss h1 h2; exact ⟨h2, h1, rfl, rfl, Nat.le_refl _⟩
  | cons e rest ih =>
      intro acc hmiss h1 h2
      have hne : e.name ≠ n := hmiss e (List.mem_cons_self _ _)
      obtain ⟨g1, g2, g3, g4, g5⟩ := c2_other env p acc e n hne
      obtain ⟨k1, k2, k3, k4, k5⟩ := ih (processImage env p acc e)
        (fun e' he' => hmiss e' (List.mem_cons_of_mem _ he')) (g2 h1)
        (by rw [g1]; exact h2)
      exact ⟨k1, k2, by rw [List.foldl_cons, k3, g3],
        by rw [List.foldl_cons, k4, g4], Nat.le_trans g5 k5⟩

theorem c2_pages_hit (env : Env) (p : Nat)
    (pages : List (Option (List Entry))) (n : String) (m : Nat)
    (hage : 3 < ageDays (env.nowAt p) m) :
    ∀ (st : St) (nf : Nat), (∀ o ∈ pages, o ≠ none) →
      n ∈ st.existing → lookupFile st.fs n = some m →
      n ∈ passImageNames pages →
      delCount n ((processPages env p pages st nf).1).trace =
        delCount n st.trace + 1 ∧
      dlEvCount n ((processPages env p pages st nf).1).trace =
        dlEvCount n st.trace + 1 ∧
      nf + 1 ≤ (processPages env p pages st nf).2.1 := by
  induction pages with
  | nil => intro st nf hall h1 h2 hin; simp [passImageNames] at hin
  | cons pg rest ih =>
      intro st nf hall h1 h2 hin
      cases pg with
      | none => exact absurd rfl (hall none (List.mem_cons_self _ _))
      | some items =>
          have hall' : ∀ o ∈ rest, o ≠ none := fun o ho =>
            hall o (List.mem_cons_of_mem _ ho)
          have hunf : processPages env p (some items :: rest) st nf =
              processPages env p rest
                ((items.filter (fun f => isImageEntry f)).foldl
                  (processImage env p) (st, nf)).1
                ((items.filter (fun f => isImageEntry f)).foldl
                  (processImage env p) (st, nf)).2 := rfl
          rw [passImageNames_cons_some] at hin
          rcases List.mem_append.mp hin with hin | hin
          · obtain ⟨g1, g2, g3, g4, g5⟩ := c2_foldl_hit env p
              (items.filter (fun f => isImageEntry f)) n m hage (st, nf) h1 h2 hin
            obtain ⟨k3, k4, k5⟩ := c2_pages_done env p rest n _ _ g2 g1
            rw [hunf]
            exact ⟨by rw [k3, g3], by rw [k4, g4], Nat.le_trans g5 k5⟩
          · by_cases hpage : n ∈ (items.filter
                (fun f => isImageEntry f)).map Entry.name
            · obtain ⟨g1, g2, g3, g4, g5⟩ := c2_foldl_hit env p
                (items.filter (fun f => isImageEntry f)) n m hage (st, nf) h1 h2 hpage
              obtain ⟨k3, k4, k5⟩ := c2_pages_done env p rest n _ _ g2 g1
              rw [hunf]
              exact ⟨by rw [k3, g3], by rw [k4, g4], Nat.le_trans g5 k5⟩
            · have hmiss : ∀ e ∈ items.filter (fun f => isImageEntry f),
                  e.name ≠ n := by
                intro e hee hcon
                exact hpage (List.mem_map.mpr ⟨e, hee, hcon⟩)
              obtain ⟨g1, g2, g3, g4, g5⟩ := c2_foldl_miss env p
                (items.filter (fun f => isImageEntry f)) n m (st, nf) hmiss h1 h2
              obtain ⟨k3, k4, k5⟩ := ih _ _ hall' g2 g1 hin
              rw [hunf]
              exact ⟨by rw [k3, g3], by rw [k4, g4],
                Nat.le_trans (Nat.add_le_add_right g5 1) k5⟩

/-- C2 (amended): within one pass whose listing succeeds (no failing
page request), an image entry whose name is in the snapshot with a
local file present whose whole-day age exceeds 3 — the code compares
`timedelta.days > 3`, i.e. the file must be at least 4 whole days
(345600 s) old, not merely "strictly older than 3 days" — is deleted
exactly once and downloaded exactly once in that pass, and counted as
one new file; even a duplicate listing of the same name in the same
pass triggers no second deletion or download. -/
theorem c2_stale_once (env : Env) (p : Nat) (pages : List (Option (List Entry)))
    (st : St) (nf : Nat) (n : String) (m : Nat)
    (hall : ∀ o ∈ pages, o ≠ none)
    (hmem : n ∈ st.existing) (hlk : lookupFile st.fs n = some m)
    (hage : 3 < ageDays (env.nowAt p) m) (hin : n ∈ passImageNames pages) :
    delCount n ((processPages env p pages st nf).1).trace =
      delCount n st.trace + 1 ∧
    dlEvCount n ((processPages env p pages st nf).1).trace =
      dlEvCount n st.trace + 1 ∧
    nf + 1 ≤ (processPages env p pages st nf).2.1 :=
  c2_pages_hit env p pages n m hage st nf hall hmem hlk hin

/-- One pass over one page holding one image whose local copy is four
days old.  Downloads succeed. -/
def envC2 : Env :=
  { listing := fun _ => [some [⟨"1", "a.jpg", "image/jpeg"⟩]],
    dl := fun _ => DlResult.ok,
    nowAt := fun _ => 4 * 86400 }

theorem c2_witness :
    ((∀ o ∈ [some [(⟨"1", "a.jpg", "image/jpeg"⟩ : Entry)]], o ≠ none) ∧
     "a.jpg" ∈ (initSt [("a.jpg", 0)]).existing ∧
     lookupFile (initSt [("a.jpg", 0)]).fs "a.jpg" = some 0 ∧
     3 < ageDays (envC2.nowAt 0) 0 ∧
     "a.jpg" ∈ passImageNames [some [⟨"1", "a.jpg", "image/jpeg"⟩]]) ∧
    (delCount "a.jpg" ((processPages envC2 0 [some [⟨"1", "a.jpg", "image/jpeg"⟩]]
        (initSt [("a.jpg", 0)]) 0).1).trace =
      delCount "a.jpg" (initSt [("a.jpg", 0)]).trace + 1 ∧
     dlEvCount "a.jpg" ((processPages envC2 0 [some [⟨"1", "a.jpg", "image/jpeg"⟩]]
        (initSt [("a.jpg", 0)]) 0).1).trace =
      dlEvCount "a.jpg" (initSt [("a.jpg", 0)]).trace + 1 ∧
     0 + 1 ≤ (processPages envC2 0 [some [⟨"1", "a.jpg", "image/jpeg"⟩]]
        (initSt [("a.jpg", 0)]) 0).2.1) :=
  ⟨⟨by decide, by decide, by decide, by decide, by decide⟩,
   c2_stale_once envC2 0 [some [⟨"1", "a.jpg", "image/jpeg"⟩]]
     (initSt [("a.jpg", 0)]) 0 "a.jpg" 0
     (by decide) (by decide) (by decide) (by decide) (by decide)⟩

/-- A local file aged exactly 3 days + 1 second, with its remote
counterpart listed. -/
def envC2x : Env :=
  { listing := fun p =>
      if p = 0 then [some [⟨"1", "a.jpg", "image/jpeg"⟩]] else [some []],
    dl := fun _ => DlResult.ok,
    nowAt := fun _ => 3 * 86400 + 1 }

/-- C2 counterexample: a local file whose age is strictly greater than
3 days (3 days + 1 second) with its remote counterpart listed is NOT
deleted and NOT redownloaded in any pass: the code compares the
whole-day count `timedelta.days` against 3, so this file is logged as
"skipped recent" and the pass loop converges with zero deletions and
zero downloads for it. -/
theorem c2_counterexample :
    3 * secondsPerDay < envC2x.nowAt 0 - 0 ∧
    Event.skippedRecent "a.jpg" ∈ (process_folder envC2x [("a.jpg", 0)]).trace ∧
    delCount "a.jpg" (process_folder envC2x [("a.jpg", 0)]).trace = 0 ∧
    dlEvCount "a.jpg" (process_folder envC2x [("a.jpg", 0)]).trace = 0 := by
  decide

end Claim2

section Claim4

theorem fileEv_ne_pass {ev : Event} (h : fileEv ev = true) (q : Nat) :
    ev ≠ Event.passStart q := by
  cases ev <;> simp [fileEv] at h ⊢

/-- A pass whose page stream holds a failing page (after any run of
successful pages) ends with the abort flag set and the folder-error
line logged; the events it adds contain no pass-start line. -/
theorem processPages_listErr (env : Env) (p : Nat) :
    ∀ (L1 L2 : List (Option (List Entry))) (st : St) (nf : Nat),
      (∀ o ∈ L1, o ≠ none) →
      ∃ st1 nf1 d, processPages env p (L1 ++ none :: L2) st nf = (st1, nf1, true) ∧
        st1.trace = st.trace ++ d ∧ Event.folderError ∈ d ∧
        ∀ q, Event.passStart q ∉ d := by
  intro L1
  induction L1 with
  | nil =>
      intro L2 st nf hsome
      refine ⟨{ st with trace := st.trace ++ [Event.folderError] }, nf,
        [Event.folderError], rfl, rfl, by simp, ?_⟩
      intro q
      simp
  | cons pg rest ih =>
      intro L2 st nf hsome
      cases pg with
      | none => exact absurd rfl (hsome none (List.mem_cons_self _ _))
      | some items =>
          have hsome' : ∀ o ∈ rest, o ≠ none := fun o ho =>
            hsome o (List.mem_cons_of_mem _ ho)
          have hunf : processPages env p ((some items :: rest) ++ none :: L2) st nf =
              processPages env p (rest ++ none :: L2)
                ((items.filter (fun f => isImageEntry f)).foldl
                  (processImage env p) (st, nf)).1
                ((items.filter (fun f => isImageEntry f)).foldl
                  (processImage env p) (st, nf)).2 := rfl
          obtain ⟨d0, hd0, hf0⟩ := foldl_trace_delta env p
            (items.filter (fun f => isImageEntry f)) (st, nf)
          obtain ⟨st1, nf1, d1, hps, htr, hferr, hnps⟩ := ih L2
            ((items.filter (fun f => isImageEntry f)).foldl
              (processImage env p) (st, nf)).1
            ((items.filter (fun f => isImageEntry f)).foldl
              (processImage env p) (st, nf)).2 hsome'
          refine ⟨st1, nf1, d0 ++ d1, by rw [hunf, hps], ?_,
            List.mem_append_right _ hferr, ?_⟩
          · rw [htr, hd0, List.append_assoc]
          · intro q hq
            rcases List.mem_append.mp hq with hq | hq
            · exact fileEv_ne_pass (hf0 _ hq) q rfl
            · exact hnps q hq

/-- C4 (amended): the two exception scopes differ.  (1) An exception
from a page-listing request is caught by the pass loop's handler: the
folder-error line is logged and the folder's pass loop ends at the
current pass — every pass-start line in the final trace is either from
before or from the current pass, never a later one — and nothing
propagates (the embedding is total).  (2) an exception during a
download is caught inside `download_image` itself and never sets the
pass loop's abort flag: with no failing page, a pass always completes
with the abort flag false, regardless of download failures. -/
theorem c4_error_scoping :
    (∀ (env : Env) (fuel p : Nat) (st : St)
       (L1 L2 : List (Option (List Entry))),
      env.listing p = L1 ++ none :: L2 → (∀ o ∈ L1, o ≠ none) →
      Event.folderError ∈ (passLoop env (fuel + 1) p st).trace ∧
      ∀ q, Event.passStart q ∈ (passLoop env (fuel + 1) p st).trace →
        Event.passStart q ∈ st.trace ∨ q = p) ∧
    (∀ (env : Env) (p : Nat) (pages : List (Option (List Entry)))
       (st : St) (nf : Nat), (∀ o ∈ pages, o ≠ none) →
      (processPages env p pages st nf).2.2 = false) := by
  constructor
  · intro env fuel p st L1 L2 hlist hsome
    obtain ⟨st1, nf1, d, hps, htr, hferr, hnps⟩ := processPages_listErr env p L1 L2
      { st with trace := st.trace ++ [Event.passStart p] } 0 hsome
    have hres : passLoop env (fuel + 1) p st = st1 := by
      have hb : passLoop env (fuel + 1) p st =
          (if (processPages env p (env.listing p)
                { st with trace := st.trace ++ [Event.passStart p] } 0).2.2 then
             (processPages env p (env.listing p)
                { st with trace := st.trace ++ [Event.passStart p] } 0).1
           else if (processPages env p (env.listing p)
                { st with trace := st.trace ++ [Event.passStart p] } 0).2.1 = 0 then
             { (processPages env p (env.listing p)
                  { st with trace := st.trace ++ [Event.passStart p] } 0).1 with
               trace := (processPages env p (env.listing p)
                  { st with trace := st.trace ++ [Event.passStart p] } 0).1.trace ++
                 [Event.noNewFiles p] }
           else passLoop env fuel (p + 1)
             (processPages env p (env.listing p)
                { st with trace := st.trace ++ [Event.passStart p] } 0).1) := rfl
      rw [hlist, hps] at hb
      simpa using hb
    rw [hres, htr]
    refine ⟨List.mem_append_right _ hferr, ?_⟩
    intro q hq
    rcases List.mem_append.mp hq with hq | hq
    · rcases List.mem_append.mp hq with hq | hq
      · exact Or.inl hq
      · simp at hq
        exact Or.inr hq
    · exact absurd hq (hnps q)
  · intro env p pages
    induction pages with
    | nil => intro st nf hsome; rfl
    | cons pg rest ih =>
        intro st nf hsome
        cases pg with
        | none => exact absurd rfl (hsome none (List.mem_cons_self _ _))
        | some items =>
            have hunf : processPages env p (some items :: rest) st nf =
                processPages env p rest
                  ((items.filter (fun f => isImageEntry f)).foldl
                    (processImage env p) (st, nf)).1
                  ((items.filter (fun f => isImageEntry f)).foldl
                    (processImage env p) (st, nf)).2 := rfl
            rw [hunf]
            exact ih _ _ (fun o ho => hsome o (List.mem_cons_of_mem _ ho))

/-- A folder whose very first page request raises. -/
def envC4w : Env :=
  { listing := fun _ => [none], dl := fun _ => DlResult.ok, nowAt := fun _ => 0 }

theorem c4_witness :
    Event.folderError ∈ (passLoop envC4w 1 0 (initSt [])).trace ∧
    (processPages envC4w 0 [some []] (initSt []) 0).2.2 = false :=
  ⟨(c4_error_scoping.1 envC4w 0 0 (initSt []) [] [] rfl (by simp)).1,
   c4_error_scoping.2 envC4w 0 [some []] (initSt []) 0 (by simp)⟩

/-- One remote image whose download raises (error before the file is
created); downloads are caught inside `download_image`, so the file is
still counted as new and the loop proceeds to pass 1. -/
def envC4x : Env :=
  { listing := fun p =>
      if p = 0 then [some [⟨"1", "x.jpg", "image/jpeg"⟩]] else [some []],
    dl := fun _ => DlResult.errNone,
    nowAt := fun _ => 0 }

/-- C4 counterexample: an exception raised while downloading does NOT
end the folder's pass loop early: the download error for `x.jpg` is
logged during pass 0, yet pass 1 is still started (its pass-start line
is in the trace), contradicting the claim that every exception raised
while listing or downloading terminates the pass loop without further
passes. -/
theorem c4_counterexample :
    Event.downloadErr "x.jpg" ∈ (process_folder envC4x []).trace ∧
    Event.passStart 1 ∈ (process_folder envC4x []).trace := by
  decide

end Claim4

end GDriveSync
